import Mathlib

/-
Verification of the isolator hierarchical Gibbs sampler core
(src/src/analyze.cpp and src/src/shredder.cpp) against its
natural-language specification.

Modelling conventions used throughout this file:

- C++ doubles and floats are idealized as exact rationals where the code is
  pure rational arithmetic and comparisons, and as real numbers where the
  code calls transcendental library functions (log, lgamma, sqrt).
- A log-density value that the code tests with boost::math::isfinite is
  modelled as an Option: none plays the role of a non-finite double, some v
  the role of a finite value v.
- The fast logarithm approximation from fastmath.hpp is not part of the
  sources under review, so functions that only feed its output onward take
  it as an abstract parameter; where a claim needs its concrete value the
  mathematical logarithm Real.log is used.
- Loops whose termination depends on floating-point convergence are given
  an explicit fuel argument; exhausting the fuel yields none, exactly like
  the abort paths of the original code, and every theorem about a returned
  value quantifies over the fuel.
- Random number generators are modelled as oracle streams: a function from
  a draw index to the drawn value.  The per-claim comments state which
  stream position corresponds to which draw of the source.
-/

namespace Isolator

/-! ## RNG seeding (Analyze::Analyze, analyze.cpp lines 1335-1347)

The constructor seeds the coordinator RNG with rng_seed, then walks the
splice RNG pool and the transcript RNG pool with a single running counter:
each pool entry is seeded with the current counter value, and the counter
is incremented after every entry. -/

/-- One seeding loop over a pool of the given size: seed the next entry
with the running counter, then increment the counter.  Returns the list of
seeds assigned and the final counter. -/
def seedLoop : ℕ → ℕ → List ℕ × ℕ
  | s, 0 => ([], s)
  | s, n + 1 =>
    let rest := seedLoop (s + 1) n
    (s :: rest.1, rest.2)

/-- The seeds that Analyze::Analyze distributes: first the splice pool
(one RNG per spliced tgroup, J entries), then the transcript pool (one RNG
per transcript, N entries), sharing one running counter that starts at the
configured rng_seed.  The coordinator RNG is seeded with the initial value
and does not advance the counter. -/
def analyzeSeeds (s J N : ℕ) : List ℕ × List ℕ :=
  let spl := seedLoop s J
  let tp := seedLoop spl.2 N
  (spl.1, tp.1)

theorem seedLoop_eq (s n : ℕ) :
    seedLoop s n = ((List.range n).map (fun i => s + i), s + n) := by
  induction n generalizing s with
  | zero => simp [seedLoop]
  | succ n ih =>
    simp only [seedLoop, ih (s + 1), List.range_succ_eq_map, List.map_cons,
      List.map_map]
    refine Prod.ext ?_ (by omega)
    simp only [List.cons.injEq]
    exact ⟨by omega, by
      congr 1
      funext i
      simp [Function.comp]
      omega⟩

/-! ## Burn-in phase schedule (Analyze::run, analyze.cpp lines 2013-2054,
and the burnin_state forcing in the workers, lines 1005-1016 and 750-763)

Analyze::run performs num_opt_rounds optimization ticks, then calls
end_burnin() on the condition-level workers, then performs the burnin
sampling ticks, then the num_samples - 1 output sampling ticks.  The
workers are constructed with burnin_state = true and force their outputs
to 1.0 exactly while that flag holds. -/

inductive Phase where
  | optimize : Phase
  | burnin : Phase
  | sampling : Phase
deriving DecidableEq

/-- ConditionMeanShapeSamplerThread::end_burnin and the identical methods
of the splice workers: the flag is simply cleared. -/
def endBurnin (_ : Bool) : Bool := false

/-- The condition_shape update of ConditionMeanShapeSamplerThread::run
(lines 1005-1016): during burn-in the shape is forced to 1.0, otherwise it
is set to the slice-sampler draw. -/
def conditionShapeUpdate (burninState : Bool) (sampled : ℚ) : ℚ :=
  if burninState then 1 else sampled

/-- The condition_splice_sigma update of
ConditionSpliceMuSigmaEtaSamplerThread::run (lines 750-763): during
burn-in the sigma is forced to 1.0, otherwise it is set to the draw and
clamped from below by analyze_min_splice_sigma. -/
def conditionSpliceSigmaUpdate (burninState : Bool)
    (minSpliceSigma sampled : ℚ) : ℚ :=
  if burninState then 1 else max minSpliceSigma sampled

/-- The tick sequence of Analyze::run, each tick tagged with its phase and
with the burnin_state flag the condition-level workers hold during that
tick.  The source order is: the optimization loop, then the end_burnin
calls, then the burn-in loop, then the sampling loop. -/
def analyzeRunTicks (numOptRounds burninRounds numSamples : ℕ) :
    List (Phase × Bool) :=
  let state0 := true
  let optTicks := List.replicate numOptRounds (Phase.optimize, state0)
  let state1 := endBurnin state0
  let burninTicks := List.replicate burninRounds (Phase.burnin, state1)
  let samplingTicks := List.replicate (numSamples - 1) (Phase.sampling, state1)
  optTicks ++ burninTicks ++ samplingTicks

/-- C2 (counterexample).  With one optimization round, one burn-in round
and two samples, the burn-in tick runs with burnin_state already false
(end_burnin is called before the burn-in loop), and with the flag false
the worker writes the sampled value through unforced: a draw of 2 yields
condition_shape 2 and condition_splice_sigma 2, not the forced 1.0 the
claim asserts for every burn-in tick. -/
theorem burnin_phase_not_forced_cx :
    analyzeRunTicks 1 1 2 =
        [(Phase.optimize, true), (Phase.burnin, false),
          (Phase.sampling, false)] ∧
      (Phase.burnin, false) ∈ analyzeRunTicks 1 1 2 ∧
      (Phase.burnin, true) ∉ analyzeRunTicks 1 1 2 ∧
      conditionShapeUpdate false 2 = 2 ∧
      conditionSpliceSigmaUpdate false 0 2 = 2 ∧ (2 : ℚ) ≠ 1 :=
  ⟨by decide, by decide, by decide,
    by norm_num [conditionShapeUpdate],
    by norm_num [conditionSpliceSigmaUpdate], by norm_num⟩

/-- C2 (amended).  The forcing of condition_shape and
condition_splice_sigma to 1.0 is active exactly during the optimization
phase: end_burnin is invoked at the barrier between the optimization
rounds and the burn-in rounds, so every burn-in and sampling tick already
runs with burnin_state = false, and the workers force to 1.0 on a tick if
and only if that tick is an optimization tick. -/
theorem burnin_forcing_phase :
    (∀ numOptRounds burninRounds numSamples : ℕ, ∀ p : Phase, ∀ st : Bool,
        (p, st) ∈ analyzeRunTicks numOptRounds burninRounds numSamples →
        (st = true ↔ p = Phase.optimize)) ∧
      (∀ x : ℚ, conditionShapeUpdate true x = 1) ∧
      (∀ x : ℚ, conditionShapeUpdate false x = x) ∧
      (∀ m y : ℚ, conditionSpliceSigmaUpdate true m y = 1) ∧
      (∀ m y : ℚ, conditionSpliceSigmaUpdate false m y = max m y) := by
  refine ⟨?_, fun x => rfl, fun x => rfl, fun m y => rfl, fun m y => rfl⟩
  intro o b s p st hmem
  simp only [analyzeRunTicks, endBurnin, List.mem_append,
    List.mem_replicate] at hmem
  rcases hmem with (⟨-, h⟩ | ⟨-, h⟩) | ⟨-, h⟩ <;> cases h <;>
    simp only [Bool.false_eq_true, false_iff, true_iff] <;>
    first
      | rfl
      | exact fun hc => Phase.noConfusion hc

/-- Witness for burnin_forcing_phase: instantiated at the schedule with
one round of each phase, the optimization tick indeed carries the flag. -/
theorem burnin_forcing_phase_witness :
    (Phase.optimize, true) ∈ analyzeRunTicks 1 1 2 ∧ (true = true ↔ Phase.optimize = Phase.optimize) :=
  ⟨by decide, burnin_forcing_phase.1 1 1 2 Phase.optimize true (by decide)⟩

/-- C5 (counterexample).  With rng_seed 0, one spliced tgroup and one
transcript, the transcript RNG is seeded with 1 (the counter has already
advanced past the splice pool), not with 0 + 0 as the claim requires. -/
theorem transcript_seed_offset_cx :
    (analyzeSeeds 0 1 1).2 = [1] ∧ (analyzeSeeds 0 1 1).2 ≠ [0 + 0] := by
  constructor <;> decide

/-- C5 (amended).  Spliced tgroup j is seeded with rng_seed + j, but
transcript i is seeded with rng_seed + J + i where J is the number of
spliced tgroups: the transcript pool continues the same running counter
after the splice pool. -/
theorem analyze_seed_assignment (s J N : ℕ) :
    (analyzeSeeds s J N).1 = (List.range J).map (fun j => s + j) ∧
      (analyzeSeeds s J N).2 = (List.range N).map (fun i => s + J + i) := by
  have h1 := seedLoop_eq s J
  have h2 := seedLoop_eq (s + J) N
  simp only [analyzeSeeds, h1, h2]
  exact ⟨trivial, trivial⟩

/-! ## Scaling normalization (Analyze::compute_scaling, analyze.cpp lines
2336-2366)

The source computes, once per call,
  effective_size = min(N, sample_scaling_truncation)
  normalization_point_idx
    = N - effective_size + sample_scaling_quantile * effective_size
where the right-hand side is evaluated in double precision and truncated
toward zero by the assignment to a size_t.  Then for every sample row i it
divides the row by the current scale[i], sorts a copy, and reads the entry
at normalization_point_idx as the raw per-sample scale; afterwards it
rescales the raw scales by the backward loop scale[i] = scale[0]/scale[i]
(which reads the raw scale[0] for every i because the loop runs from K-1
down to 0) and multiplies each row by its new scale.  Floats are
idealized as exact rationals. -/

def effectiveSize (N L : ℕ) : ℕ := min N L

/-- The index the source computes: the fractional product is truncated on
conversion to size_t. -/
def normalizationPointIdx (N L : ℕ) (q : ℚ) : ℕ :=
  N - effectiveSize N L + (Int.floor (q * effectiveSize N L)).toNat

/-- The index claim C3 states: the ceiling of q times min(N, L), with no
offset from the row end. -/
def normalizationPointIdxSpecC3 (N L : ℕ) (q : ℚ) : ℕ :=
  (Int.ceil (q * effectiveSize N L)).toNat

/-- std::sort of a row copy. -/
def sortedRow (row : List ℚ) : List ℚ := row.insertionSort (fun a b => a ≤ b)

/-- The in-place division of row i of Q by scale[i]. -/
def unscaleRow (row : List ℚ) (s : ℚ) : List ℚ := row.map (fun x => x / s)

/-- The raw per-sample scale: the sorted unscaled row read at the
normalization point index. -/
def rawScale (idx : ℕ) (row : List ℚ) (s : ℚ) : ℚ :=
  (sortedRow (unscaleRow row s)).getD idx 0

/-- compute_scaling with the normalization point index factored out, so
that the source index and the index the claim states can be compared on
the same pipeline. -/
def computeScalingWithIdx (idx : ℕ) (Q : List (List ℚ)) (scale : List ℚ) :
    List (List ℚ) × List ℚ :=
  let unscaled := (Q.zip scale).map (fun rs => unscaleRow rs.1 rs.2)
  let raw := (Q.zip scale).map (fun rs => rawScale idx rs.1 rs.2)
  let newScale := raw.map (fun r => raw.headD 1 / r)
  let Qnew := (unscaled.zip newScale).map (fun rs => rs.1.map (fun x => x * rs.2))
  (Qnew, newScale)

/-- Analyze::compute_scaling. -/
def computeScaling (N L : ℕ) (q : ℚ) (Q : List (List ℚ)) (scale : List ℚ) :
    List (List ℚ) × List ℚ :=
  computeScalingWithIdx (normalizationPointIdx N L q) Q scale

/-- The same pipeline at the index claim C3 describes. -/
def computeScalingSpecC3 (N L : ℕ) (q : ℚ) (Q : List (List ℚ))
    (scale : List ℚ) : List (List ℚ) × List ℚ :=
  computeScalingWithIdx (normalizationPointIdxSpecC3 N L q) Q scale

/-- C3 (counterexample).  With N = 3, truncation L = 3, quantile q = 1/2,
rows [4, 2, 1] and [8, 1, 1] and current scales 1: the source index is
3 - 3 + floor(3/2) = 1 while the claimed index is ceil(3/2) = 2, so the
source takes raw scales (2, 1) and produces scale [1, 2], while the
claimed index takes raw scales (4, 8) and produces scale [1, 1/2]. -/
theorem compute_scaling_index_cx :
    (computeScaling 3 3 (1/2) [[4, 2, 1], [8, 1, 1]] [1, 1]).2 = [1, 2] ∧
      (computeScalingSpecC3 3 3 (1/2) [[4, 2, 1], [8, 1, 1]] [1, 1]).2 =
        [1, 1/2] ∧
      (computeScaling 3 3 (1/2) [[4, 2, 1], [8, 1, 1]] [1, 1]).2 ≠
        (computeScalingSpecC3 3 3 (1/2) [[4, 2, 1], [8, 1, 1]] [1, 1]).2 := by
  have hidx : normalizationPointIdx 3 3 (1/2) = 1 := by
    norm_num [normalizationPointIdx, effectiveSize]
  have hidx2 : normalizationPointIdxSpecC3 3 3 (1/2) = 2 := by
    have hc : Int.ceil ((3 : ℚ)/2) = 2 := by
      rw [Int.ceil_eq_iff]
      norm_num
    simp only [normalizationPointIdxSpecC3, effectiveSize]
    norm_num [hc]
    rfl
  have h1 : (computeScaling 3 3 (1/2) [[4, 2, 1], [8, 1, 1]] [1, 1]).2 = [1, 2] := by
    simp only [computeScaling, computeScalingWithIdx, hidx, rawScale, sortedRow,
      unscaleRow, List.zip_cons_cons, List.map_cons, List.map_nil,
      List.insertionSort, List.orderedInsert]
    norm_num
  have h2 : (computeScalingSpecC3 3 3 (1/2) [[4, 2, 1], [8, 1, 1]] [1, 1]).2 =
      [1, 1/2] := by
    simp only [computeScalingSpecC3, computeScalingWithIdx, hidx2, rawScale, sortedRow,
      unscaleRow, List.zip_cons_cons, List.map_cons, List.map_nil,
      List.insertionSort, List.orderedInsert]
    norm_num
  refine ⟨h1, h2, ?_⟩
  rw [h1, h2]
  intro hcontra
  have := List.cons.inj hcontra
  norm_num at this

theorem normalizationPointIdx_lt (N L : ℕ) (q : ℚ) (hN : 0 < N) (hL : 0 < L)
    (hq1 : q < 1) : normalizationPointIdx N L q < N := by
  have hE : 0 < min N L := lt_min hN hL
  have hqE : q * ((min N L : ℕ) : ℚ) < ((min N L : ℕ) : ℚ) := by
    have h0 : (0 : ℚ) < ((min N L : ℕ) : ℚ) := by exact_mod_cast hE
    nlinarith
  have hfl : Int.floor (q * ((min N L : ℕ) : ℚ)) < ((min N L : ℕ) : ℤ) := by
    rw [Int.floor_lt]
    exact_mod_cast hqE
  have hmn : min N L ≤ N := min_le_left N L
  unfold normalizationPointIdx effectiveSize
  omega

theorem rawScale_pos (idx : ℕ) (row : List ℚ) (s : ℚ)
    (hidx : idx < row.length) (hrow : ∀ x ∈ row, 0 < x) (hs : 0 < s) :
    0 < rawScale idx row s := by
  unfold rawScale
  have hlen1 : (unscaleRow row s).length = row.length := by
    simp [unscaleRow]
  have hlen2 : (sortedRow (unscaleRow row s)).length = row.length := by
    rw [sortedRow, List.length_insertionSort, hlen1]
  have hidx2 : idx < (sortedRow (unscaleRow row s)).length := by omega
  have hall : ∀ y ∈ sortedRow (unscaleRow row s), 0 < y := by
    intro y hy
    have hy2 : y ∈ unscaleRow row s :=
      (List.perm_insertionSort _ (unscaleRow row s)).mem_iff.mp hy
    simp only [unscaleRow, List.mem_map] at hy2
    obtain ⟨x, hx, rfl⟩ := hy2
    exact div_pos (hrow x hx) hs
  rw [List.getD_eq_getElem _ _ hidx2]
  exact hall _ (List.getElem_mem hidx2)

theorem list_getD_map {α β : Type} (l : List α) (f : α → β) (i : ℕ) (d : β)
    (d' : α) (h : i < l.length) : (l.map f).getD i d = f (l.getD i d') := by
  rw [List.getD_eq_getElem _ _ (by simpa using h), List.getD_eq_getElem _ _ h]
  simp

theorem list_getD_zip {α β : Type} (a : List α) (b : List β) (i : ℕ)
    (da : α) (db : β) (ha : i < a.length) (hb : i < b.length) :
    (a.zip b).getD i (da, db) = (a.getD i da, b.getD i db) := by
  have h : i < (a.zip b).length := by
    rw [List.length_zip]
    omega
  rw [List.getD_eq_getElem _ _ h, List.getD_eq_getElem _ _ ha,
    List.getD_eq_getElem _ _ hb]
  exact List.getElem_zip

theorem headD_eq_getD_zero {α : Type} (l : List α) (h : 0 < l.length)
    (d d' : α) : l.headD d = l.getD 0 d' := by
  cases l with
  | nil => simp at h
  | cons a t => rfl

/-- C3 (amended).  compute_scaling divides each row of Q by the current
scale, sorts a copy, and takes the sorted value at index
N - E + floor(q * E) with E = min(N, L) (the claim instead stated index
ceil(q * min(N, L)); the source offsets the index by N - E and the
double-to-size_t conversion truncates rather than rounds up) as the raw
per-sample scale; it renormalizes so the new scale of sample 0 is 1 and
the new scale of sample i is raw[0]/raw[i], and multiplies each unscaled
row back through by its new scale.  After the call the scale of sample 0
is 1 and every scale is positive. -/
theorem compute_scaling_characterization :
    ∀ (N L : ℕ) (q : ℚ) (Q : List (List ℚ)) (scale : List ℚ),
      0 < N → 0 < L → q < 1 →
      Q.length = scale.length → 0 < Q.length →
      (∀ row ∈ Q, row.length = N) →
      (∀ row ∈ Q, ∀ x ∈ row, 0 < x) →
      (∀ s ∈ scale, 0 < s) →
      normalizationPointIdx N L q < N ∧
      (computeScaling N L q Q scale).2.getD 0 0 = 1 ∧
      (∀ y ∈ (computeScaling N L q Q scale).2, 0 < y) ∧
      (∀ i, i < Q.length →
        (computeScaling N L q Q scale).2.getD i 0 =
          rawScale (normalizationPointIdx N L q) (Q.getD 0 []) (scale.getD 0 1) /
            rawScale (normalizationPointIdx N L q) (Q.getD i []) (scale.getD i 1)) ∧
      (∀ i, i < Q.length →
        (computeScaling N L q Q scale).1.getD i [] =
          (unscaleRow (Q.getD i []) (scale.getD i 1)).map
            (fun x => x * (computeScaling N L q Q scale).2.getD i 0)) := by
  intro N L q Q scale hN hL hq1 hlen hK hrowlen hrowpos hspos
  have hidxN : normalizationPointIdx N L q < N := by
    exact normalizationPointIdx_lt N L q hN hL hq1
  set idx := normalizationPointIdx N L q with hidxdef
  -- facts about the intermediate lists
  have hziplen : (Q.zip scale).length = Q.length := by
    rw [List.length_zip]
    omega
  have hrawlen : ((Q.zip scale).map
      (fun rs => rawScale idx rs.1 rs.2)).length = Q.length := by
    rw [List.length_map]
    exact hziplen
  have hQmem : ∀ i, i < Q.length → Q.getD i [] ∈ Q := by
    intro i hi
    rw [List.getD_eq_getElem _ _ hi]
    exact List.getElem_mem hi
  have hsmem : ∀ i, i < Q.length → scale.getD i 1 ∈ scale := by
    intro i hi
    have hi2 : i < scale.length := by omega
    rw [List.getD_eq_getElem _ _ hi2]
    exact List.getElem_mem hi2
  have hraw_i : ∀ i, ∀ d : ℚ, i < Q.length →
      ((Q.zip scale).map (fun rs => rawScale idx rs.1 rs.2)).getD i d =
        rawScale idx (Q.getD i []) (scale.getD i 1) := by
    intro i d hi
    rw [list_getD_map (Q.zip scale) _ i d ([], 1) (by omega)]
    rw [list_getD_zip Q scale i [] 1 hi (by omega)]
  have hraw_pos : ∀ i, i < Q.length →
      0 < ((Q.zip scale).map (fun rs => rawScale idx rs.1 rs.2)).getD i 0 := by
    intro i hi
    rw [hraw_i i 0 hi]
    refine rawScale_pos idx (Q.getD i []) (scale.getD i 1) ?_
      (hrowpos _ (hQmem i hi)) (hspos _ (hsmem i hi))
    rw [hrowlen _ (hQmem i hi)]
    exact hidxN
  have hhead : ((Q.zip scale).map (fun rs => rawScale idx rs.1 rs.2)).headD 1 =
      ((Q.zip scale).map (fun rs => rawScale idx rs.1 rs.2)).getD 0 0 := by
    exact headD_eq_getD_zero _ (by omega) 1 0
  -- the second component of the result
  have hsnd : (computeScaling N L q Q scale).2 =
      ((Q.zip scale).map (fun rs => rawScale idx rs.1 rs.2)).map
        (fun r => ((Q.zip scale).map (fun rs => rawScale idx rs.1 rs.2)).headD 1 / r) := by
    simp only [computeScaling, computeScalingWithIdx]
  have hsnd_i : ∀ i, i < Q.length →
      (computeScaling N L q Q scale).2.getD i 0 =
        rawScale idx (Q.getD 0 []) (scale.getD 0 1) /
          rawScale idx (Q.getD i []) (scale.getD i 1) := by
    intro i hi
    rw [hsnd, list_getD_map _ _ i 0 1 (by omega), hhead, hraw_i i 1 hi,
      hraw_i 0 0 hK]
  refine ⟨hidxN, ?_, ?_, hsnd_i, ?_⟩
  · -- scale[0] = 1 after the call
    rw [hsnd_i 0 hK]
    have h0 : 0 < rawScale idx (Q.getD 0 []) (scale.getD 0 1) := by
      have := hraw_pos 0 hK
      rwa [hraw_i 0 0 hK] at this
    exact div_self (ne_of_gt h0)
  · -- every scale positive
    intro y hy
    rw [hsnd] at hy
    simp only [List.mem_map] at hy
    obtain ⟨r, hr, rfl⟩ := hy
    obtain ⟨rs, hrs, rfl⟩ := hr
    obtain ⟨hrs1, hrs2⟩ := List.of_mem_zip hrs
    have hr_pos : 0 < rawScale idx rs.1 rs.2 := by
      refine rawScale_pos idx rs.1 rs.2 ?_ (hrowpos _ hrs1) (hspos _ hrs2)
      rw [hrowlen _ hrs1]
      exact hidxN
    have hh_pos : 0 <
        ((Q.zip scale).map (fun rs => rawScale idx rs.1 rs.2)).headD 1 := by
      rw [hhead]
      have := hraw_pos 0 hK
      exact this
    exact div_pos hh_pos hr_pos
  · -- each row is the unscaled row multiplied by its new scale
    intro i hi
    have hfst : (computeScaling N L q Q scale).1 =
        (((Q.zip scale).map (fun rs => unscaleRow rs.1 rs.2)).zip
            (computeScaling N L q Q scale).2).map
          (fun rs => rs.1.map (fun x => x * rs.2)) := by
      simp only [computeScaling, computeScalingWithIdx]
    have hunslen : ((Q.zip scale).map
        (fun rs => unscaleRow rs.1 rs.2)).length = Q.length := by
      rw [List.length_map]
      exact hziplen
    have hsndlen : (computeScaling N L q Q scale).2.length = Q.length := by
      rw [hsnd, List.length_map]
      exact hrawlen
    rw [hfst, list_getD_map _ _ i [] ([], 0) (by rw [List.length_zip]; omega)]
    rw [list_getD_zip _ _ i [] 0 (by omega) (by omega)]
    rw [list_getD_map (Q.zip scale) _ i [] ([], 1) (by omega)]
    rw [list_getD_zip Q scale i [] 1 hi (by omega)]

/-- Witness for compute_scaling_characterization at a concrete two-sample
instance. -/
theorem compute_scaling_characterization_witness :
    (computeScaling 3 3 (1/2) [[4, 2, 1], [8, 1, 1]] [1, 1]).2.getD 0 0 = 1 ∧
      ∀ y ∈ (computeScaling 3 3 (1/2) [[4, 2, 1], [8, 1, 1]] [1, 1]).2, 0 < y := by
  have h := compute_scaling_characterization 3 3 (1/2)
    [[4, 2, 1], [8, 1, 1]] [1, 1] (by norm_num) (by norm_num) (by norm_num)
    (by norm_num) (by norm_num)
    (by intro row hrow; fin_cases hrow <;> norm_num)
    (by intro row hrow; fin_cases hrow <;> intro x hx <;> fin_cases hx <;> norm_num)
    (by intro s hs; fin_cases hs <;> norm_num)
  exact ⟨h.2.1, h.2.2.1⟩

/-- C4 (counterexample).  Rows [1/2, 1/2] and [1/4, 3/4] both sum to one
and carry scale 1; after compute_scaling with N = L = 2, q = 1/2 the
second row is rescaled by 2/3 and sums to 2/3, not 1. -/
theorem compute_scaling_row_sum_ne_one_cx :
    ((computeScaling 2 2 (1/2) [[1/2, 1/2], [1/4, 3/4]] [1, 1]).1.getD 1 []).sum
        = 2/3 ∧
      ((computeScaling 2 2 (1/2) [[1/2, 1/2], [1/4, 3/4]] [1, 1]).1.getD 1 []).sum
        ≠ 1 := by
  have hidx : normalizationPointIdx 2 2 (1/2) = 1 := by
    norm_num [normalizationPointIdx, effectiveSize]
  have h1 : ((computeScaling 2 2 (1/2) [[1/2, 1/2], [1/4, 3/4]] [1, 1]).1.getD 1 []).sum
      = 2/3 := by
    simp only [computeScaling, computeScalingWithIdx, hidx, rawScale, sortedRow,
      unscaleRow, List.zip_cons_cons, List.map_cons, List.map_nil,
      List.insertionSort, List.orderedInsert]
    norm_num
  refine ⟨h1, ?_⟩
  rw [h1]
  norm_num

/-- C4 (amended).  After compute_scaling, row i of Q sums to the new
scale of sample i times the sum of the unscaled row (the old row sum
divided by the old scale); in particular the rows do not in general sum
to 1 after the call. -/
theorem compute_scaling_row_sums :
    ∀ (N L : ℕ) (q : ℚ) (Q : List (List ℚ)) (scale : List ℚ) (i : ℕ),
      Q.length = scale.length → i < Q.length →
      ((computeScaling N L q Q scale).1.getD i []).sum =
        (computeScaling N L q Q scale).2.getD i 0 *
          ((Q.getD i []).sum / scale.getD i 1) := by
  intro N L q Q scale i hlen hi
  set idx := normalizationPointIdx N L q with hidxdef
  have hziplen : (Q.zip scale).length = Q.length := by
    rw [List.length_zip]
    omega
  have hsndlen : (computeScaling N L q Q scale).2.length = Q.length := by
    simp only [computeScaling, computeScalingWithIdx]
    rw [List.length_map, List.length_map]
    exact hziplen
  have hfst : (computeScaling N L q Q scale).1 =
      (((Q.zip scale).map (fun rs => unscaleRow rs.1 rs.2)).zip
          (computeScaling N L q Q scale).2).map
        (fun rs => rs.1.map (fun x => x * rs.2)) := by
    simp only [computeScaling, computeScalingWithIdx]
  rw [hfst, list_getD_map _ _ i [] ([], 0)
      (by rw [List.length_zip, List.length_map, hziplen]; omega)]
  rw [list_getD_zip _ _ i [] 0 (by rw [List.length_map, hziplen]; omega) (by omega)]
  rw [list_getD_map (Q.zip scale) _ i [] ([], 1) (by omega)]
  rw [list_getD_zip Q scale i [] 1 hi (by omega)]
  have hsum1 : ((unscaleRow (Q.getD i []) (scale.getD i 1)).map
      (fun x => x * (computeScaling N L q Q scale).2.getD i 0)).sum =
      (unscaleRow (Q.getD i []) (scale.getD i 1)).sum *
        (computeScaling N L q Q scale).2.getD i 0 := by
    simpa using List.sum_map_mul_right (unscaleRow (Q.getD i []) (scale.getD i 1))
      id ((computeScaling N L q Q scale).2.getD i 0)
  rw [hsum1]
  have hsum2 : (unscaleRow (Q.getD i []) (scale.getD i 1)).sum =
      (Q.getD i []).sum / scale.getD i 1 := by
    simp only [unscaleRow, div_eq_mul_inv]
    simpa using List.sum_map_mul_right (Q.getD i []) id (scale.getD i 1)⁻¹
  rw [hsum2]
  ring

/-- Witness for compute_scaling_row_sums at the concrete instance of the
counterexample: the second row sums to its new scale 2/3 times its
unscaled row sum 1. -/
theorem compute_scaling_row_sums_witness :
    ((computeScaling 2 2 (1/2) [[1/2, 1/2], [1/4, 3/4]] [1, 1]).1.getD 1 []).sum =
      (computeScaling 2 2 (1/2) [[1/2, 1/2], [1/4, 3/4]] [1, 1]).2.getD 1 0 *
        (([1/4, 3/4] : List ℚ).sum / 1) :=
  compute_scaling_row_sums 2 2 (1/2) [[1/2, 1/2], [1/4, 3/4]] [1, 1] 1
    (by norm_num) (by norm_num)

/-! ## Eta rescaling step
(ConditionSpliceMuSigmaEtaSamplerThread::run, analyze.cpp lines 674-715)

For each member k of the spliced tgroup j being processed, the worker
computes unadj_sigma = condition_splice_sigma[j][k] / |eta[j][k]| and, for
every condition i, sample_mu[i] (a per-condition mean of the proportion
data, which depends only on Q) and
unadj_mu[i] = (condition_splice_mu[i][j][k] - sample_mu[i]) / eta[j][k];
it then draws a new eta, rescales sigma to unadj_sigma * |eta| and each mu
to unadj_mu[i] * eta + sample_mu[i], and finally resets eta[j][k] to 1.
The eta draw is abstracted as an oracle indexed by k; the sample_mu values
are likewise a function of the condition and the member, since they are
computed from the read-only proportion matrix. -/

structure SpliceState where
  mu : ℕ → ℕ → ℚ
  sigma : ℕ → ℚ
  eta : ℕ → ℚ

/-- The body of the eta loop for a single member k. -/
def etaStepK (C : ℕ) (sampleMu : ℕ → ℕ → ℚ) (draw : ℕ → ℚ)
    (st : SpliceState) (k : ℕ) : SpliceState :=
  let unadjSigma := st.sigma k / |st.eta k|
  let unadjMu := fun i => (st.mu i k - sampleMu i k) / st.eta k
  let e := draw k
  { mu := fun i kk => if kk = k ∧ i < C then unadjMu i * e + sampleMu i k
      else st.mu i kk
    sigma := Function.update st.sigma k (unadjSigma * |e|)
    eta := Function.update st.eta k 1 }

/-- The eta loop over all members k of the tgroup (tgroup_tids size m). -/
def etaStepAll (C m : ℕ) (sampleMu : ℕ → ℕ → ℚ) (draw : ℕ → ℚ)
    (st : SpliceState) : SpliceState :=
  (List.range m).foldl (etaStepK C sampleMu draw) st

theorem etaStepK_preserves (C : ℕ) (sampleMu : ℕ → ℕ → ℚ) (draw : ℕ → ℚ)
    (st : SpliceState) (k k' : ℕ) (hne : k ≠ k') :
    (∀ i, (etaStepK C sampleMu draw st k').mu i k = st.mu i k) ∧
      (etaStepK C sampleMu draw st k').sigma k = st.sigma k ∧
      (etaStepK C sampleMu draw st k').eta k = st.eta k := by
  refine ⟨?_, ?_, ?_⟩
  · intro i
    simp only [etaStepK]
    rw [if_neg]
    intro hcon
    exact hne hcon.1
  · simp only [etaStepK]
    exact Function.update_noteq hne _ _
  · simp only [etaStepK]
    exact Function.update_noteq hne _ _

theorem etaStepAll_preserves (C : ℕ) (sampleMu : ℕ → ℕ → ℚ) (draw : ℕ → ℚ)
    (st : SpliceState) (l : List ℕ) (k : ℕ) (hk : k ∉ l) :
    (∀ i, (l.foldl (etaStepK C sampleMu draw) st).mu i k = st.mu i k) ∧
      (l.foldl (etaStepK C sampleMu draw) st).sigma k = st.sigma k ∧
      (l.foldl (etaStepK C sampleMu draw) st).eta k = st.eta k := by
  induction l generalizing st with
  | nil => exact ⟨fun i => rfl, rfl, rfl⟩
  | cons a t ih =>
    have hka : k ≠ a := fun h => hk (h ▸ List.mem_cons_self a t)
    have hkt : k ∉ t := fun h => hk (List.mem_cons_of_mem a h)
    have hstep := etaStepK_preserves C sampleMu draw st k a hka
    have hrest := ih (etaStepK C sampleMu draw st a) hkt
    exact ⟨fun i => (hrest.1 i).trans (hstep.1 i),
      hrest.2.1.trans hstep.2.1, hrest.2.2.trans hstep.2.2⟩

/-- C7.  After the eta step of the ConditionSpliceMuSigmaEta worker for a
member k (part of the loop over all members of the tgroup), the eta of
that member is 1, its sigma has been rescaled to unadj_sigma times the
absolute value of the eta draw, and for every condition c its mu has been
rescaled to unadj_mu[c] times the draw plus sample_mu[c], where the
unadjusted values are computed from the state before the loop. -/
theorem eta_step_rescaling (C m : ℕ) (sampleMu : ℕ → ℕ → ℚ) (draw : ℕ → ℚ)
    (st : SpliceState) (k : ℕ) (hk : k < m) :
    (etaStepAll C m sampleMu draw st).eta k = 1 ∧
      (etaStepAll C m sampleMu draw st).sigma k =
        st.sigma k / |st.eta k| * |draw k| ∧
      (∀ c, c < C → (etaStepAll C m sampleMu draw st).mu c k =
        (st.mu c k - sampleMu c k) / st.eta k * draw k + sampleMu c k) := by
  induction m with
  | zero => omega
  | succ m ih =>
    unfold etaStepAll
    rw [List.range_succ, List.foldl_append, List.foldl_cons, List.foldl_nil]
    by_cases hkm : k < m
    · -- the final step runs at index m, which differs from k
      have hlast := etaStepK_preserves C sampleMu draw
        ((List.range m).foldl (etaStepK C sampleMu draw) st) k m (by omega)
      have hmain := ih hkm
      unfold etaStepAll at hmain
      exact ⟨hlast.2.2.trans hmain.1, hlast.2.1.trans hmain.2.1,
        fun c hc => (hlast.1 c).trans (hmain.2.2 c hc)⟩
    · -- k = m: the steps before k leave index k untouched, and the step
      -- at k writes the final values
      have hkm2 : k = m := by omega
      subst hkm2
      have hpre := etaStepAll_preserves C sampleMu draw st (List.range k) k
        (by simp)
      set stPre := (List.range k).foldl (etaStepK C sampleMu draw) st with hstPre
      refine ⟨?_, ?_, ?_⟩
      · simp [etaStepK]
      · simp only [etaStepK, Function.update_same]
        rw [hpre.2.1, hpre.2.2]
      · intro c hc
        simp only [etaStepK]
        rw [if_pos ⟨trivial, hc⟩]
        rw [hpre.1 c, hpre.2.2]

/-- Witness for eta_step_rescaling: one condition, one member, constant
draw 2, initial mu 3, sigma 1, eta 1 and sample mean 0: the final state
has eta 1, sigma 2 and mu 6. -/
theorem eta_step_rescaling_witness :
    (etaStepAll 1 1 (fun _ _ => 0) (fun _ => 2)
        ⟨fun _ _ => 3, fun _ => 1, fun _ => 1⟩).eta 0 = 1 ∧
      (etaStepAll 1 1 (fun _ _ => 0) (fun _ => 2)
        ⟨fun _ _ => 3, fun _ => 1, fun _ => 1⟩).sigma 0 = 1 / |(1 : ℚ)| * |(2 : ℚ)| ∧
      (∀ c, c < 1 → (etaStepAll 1 1 (fun _ _ => 0) (fun _ => 2)
        ⟨fun _ _ => 3, fun _ => 1, fun _ => 1⟩).mu c 0 =
          (3 - 0) / 1 * 2 + 0) :=
  eta_step_rescaling 1 1 (fun _ _ => 0) (fun _ => 2)
    ⟨fun _ _ => 3, fun _ => 1, fun _ => 1⟩ 0 (by norm_num)

/-! ## NormalMuSampler (analyze.cpp lines 84-107)

The conjugate Normal-mean draw.  The standard-normal variate produced by
the boost normal_distribution on the supplied RNG is abstracted as the
parameter z.  std::accumulate(xs, xs + n, 0.0) is the left fold of
addition starting from zero. -/

noncomputable def normalMuSample (z sigma : ℝ) (xs : List ℝ)
    (priorMu priorSigma : ℝ) : ℝ :=
  let priorVar := priorSigma * priorSigma
  let var := sigma * sigma
  let part := 1 / priorVar + (xs.length : ℝ) / var
  let posteriorMu :=
    (priorMu / priorVar + xs.foldl (fun a x => a + x) 0 / var) / part
  let posteriorSigma := Real.sqrt (1 / part)
  posteriorMu + z * posteriorSigma

/-- C8.  NormalMuSampler::sample returns m + z * s with m the posterior
mean (mu0/sigma0^2 + sum xs/sigma^2) / (1/sigma0^2 + n/sigma^2) and s the
posterior standard deviation sqrt(1 / (1/sigma0^2 + n/sigma^2)). -/
theorem normal_mu_sampler_posterior (sigma mu0 sigma0 z : ℝ) (xs : List ℝ)
    (hs : 0 < sigma) (hs0 : 0 < sigma0) :
    normalMuSample z sigma xs mu0 sigma0 =
      (mu0 / sigma0 ^ 2 + xs.sum / sigma ^ 2) /
          (1 / sigma0 ^ 2 + (xs.length : ℝ) / sigma ^ 2) +
        z * Real.sqrt (1 / (1 / sigma0 ^ 2 + (xs.length : ℝ) / sigma ^ 2)) := by
  unfold normalMuSample
  rw [← List.sum_eq_foldl]
  ring_nf

/-- Witness for normal_mu_sampler_posterior: sigma = sigma0 = 1, no
observations, z = 0. -/
theorem normal_mu_sampler_posterior_witness :
    normalMuSample 0 1 [] 2 1 =
      (2 / 1 ^ 2 + ([] : List ℝ).sum / 1 ^ 2) /
          (1 / 1 ^ 2 + (([] : List ℝ).length : ℝ) / 1 ^ 2) +
        0 * Real.sqrt (1 / (1 / 1 ^ 2 + (([] : List ℝ).length : ℝ) / 1 ^ 2)) :=
  normal_mu_sampler_posterior 1 2 1 0 [] (by norm_num) (by norm_num)

/-! ## Log-pdf primitives and the sigma samplers
(shredder.cpp lines 244-331 and 334-371; analyze.cpp lines 385-433 and
436-489)

NormalLogPdf and LogNormalLogPdf are embedded from shredder.cpp with the
fast logarithm idealized as Real.log.  GammaLogPdf and GammaLogPdfDx are
declared in distributions.hpp, which is not among the sources under
review; they are modelled below from the spec.  The source of claim C1 is
the member declarations of the two sigma samplers in analyze.cpp:
GammaNormalSigmaSampler declares
  GammaLogPdf prior; GammaLogPdf prior_dx;
so its gradient accumulates the prior log-density VALUE, while
GammaLogNormalSigmaSampler declares
  GammaLogPdf prior; GammaLogPdfDx prior_dx;
so its gradient accumulates the prior log-density DERIVATIVE. -/

noncomputable def negLog2PiDiv2 : ℝ := -Real.log (2 * Real.pi) / 2

/-- Square helper, sq of shredder.cpp. -/
noncomputable def sq (x : ℝ) : ℝ := x * x

/-- Cube helper, cb of shredder.cpp. -/
noncomputable def cb (x : ℝ) : ℝ := x * x * x

/-- NormalLogPdf::f on a vector of observations. -/
noncomputable def normalLogPdfF (mu sigma : ℝ) (xs : List ℝ) : ℝ :=
  (xs.length : ℝ) * (negLog2PiDiv2 - Real.log sigma) -
    (xs.map (fun x => sq (x - mu) / (2 * sq sigma))).sum

/-- NormalLogPdf::df_dsigma on a vector of observations. -/
noncomputable def normalLogPdfDfDsigma (mu sigma : ℝ) (xs : List ℝ) : ℝ :=
  (xs.map (fun x => sq (x - mu))).sum / cb sigma - (xs.length : ℝ) / sigma

/-- LogNormalLogPdf::f on a vector of observations. -/
noncomputable def logNormalLogPdfF (mu sigma : ℝ) (xs : List ℝ) : ℝ :=
  (xs.length : ℝ) * (negLog2PiDiv2 - Real.log sigma) -
    (xs.map (fun x => sq (Real.log x - mu) / (2 * sq sigma) + Real.log x)).sum

/-- LogNormalLogPdf::df_dsigma on a vector of observations. -/
noncomputable def logNormalLogPdfDfDsigma (mu sigma : ℝ) (xs : List ℝ) : ℝ :=
  (xs.map (fun x => sq (Real.log x - mu))).sum / cb sigma -
    (xs.length : ℝ) / sigma

/-- Modelled from the spec: distributions.hpp is not among the sources
under review.  The Gamma(alpha, beta) log-density in the shape-rate
parameterization, evaluated by the member function x of GammaLogPdf after
set_alpha and set_beta; the identical vectorized formula appears in the
disabled block of shredder.cpp. -/
noncomputable def gammaLogPdfX (alpha beta x : ℝ) : ℝ :=
  alpha * Real.log beta - Real.log (Real.Gamma alpha) +
    (alpha - 1) * Real.log x - beta * x

/-- Modelled from the spec: the derivative in x of the Gamma(alpha, beta)
log-density, evaluated by the member function x of GammaLogPdfDx; the
identical vectorized formula appears in the disabled block of
shredder.cpp. -/
noncomputable def gammaLogPdfDxX (alpha beta x : ℝ) : ℝ :=
  (alpha - 1) / x - beta

/-- GammaNormalSigmaSampler::f (analyze.cpp lines 420-432).  The sampler
declares both prior and prior_dx with type GammaLogPdf, so the gradient
accumulates the log-density value of the prior. -/
noncomputable def gammaNormalSigmaF (priorAlpha priorBeta : ℝ) (xs : List ℝ)
    (sigma : ℝ) : ℝ × ℝ :=
  (normalLogPdfF 0 sigma xs + gammaLogPdfX priorAlpha priorBeta sigma,
    normalLogPdfDfDsigma 0 sigma xs + gammaLogPdfX priorAlpha priorBeta sigma)

/-- GammaLogNormalSigmaSampler::f (analyze.cpp lines 474-488).  The loop
accumulates, for each observation i, the LogNormal log-density and its
sigma derivative at (mu[i], sigma); the prior_dx member has type
GammaLogPdfDx, so the gradient accumulates the derivative of the prior. -/
noncomputable def gammaLogNormalSigmaF (priorAlpha priorBeta : ℝ)
    (mus xs : List ℝ) (sigma : ℝ) : ℝ × ℝ :=
  let acc := (mus.zip xs).foldl
    (fun (a : ℝ × ℝ) (p : ℝ × ℝ) =>
      (a.1 + logNormalLogPdfF p.1 sigma [p.2],
        a.2 + logNormalLogPdfDfDsigma p.1 sigma [p.2]))
    (0, 0)
  (acc.1 + gammaLogPdfX priorAlpha priorBeta sigma,
    acc.2 + gammaLogPdfDxX priorAlpha priorBeta sigma)

/-- C1 (counterexample).  With no observations, prior alpha = beta = 1
and sigma = 2, the gradient returned by GammaLogNormalSigmaSampler::f is
the Gamma prior derivative (1-1)/2 - 1 = -1, not the Gamma prior
log-density value log 1 - log Gamma(1) + 0 - 2 = -2 that the claim
asserts: the GammaLogNormalSigma sampler does not wire GammaLogPdf as its
prior_dx member. -/
theorem gammaLogNormalSigma_claimed_gradient_false :
    (gammaLogNormalSigmaF 1 1 [] [] 2).2 = -1 ∧
      (([] : List (ℝ × ℝ)).map
          (fun p => logNormalLogPdfDfDsigma p.1 2 [p.2])).sum +
        gammaLogPdfX 1 1 2 = -2 ∧
      (gammaLogNormalSigmaF 1 1 [] [] 2).2 ≠
        (([] : List (ℝ × ℝ)).map
            (fun p => logNormalLogPdfDfDsigma p.1 2 [p.2])).sum +
          gammaLogPdfX 1 1 2 := by
  have h1 : (gammaLogNormalSigmaF 1 1 [] [] 2).2 = -1 := by
    simp [gammaLogNormalSigmaF, gammaLogPdfDxX]
  have h2 : (([] : List (ℝ × ℝ)).map
      (fun p => logNormalLogPdfDfDsigma p.1 2 [p.2])).sum +
        gammaLogPdfX 1 1 2 = -2 := by
    simp [gammaLogPdfX, Real.Gamma_one, Real.log_one]
  refine ⟨h1, h2, ?_⟩
  rw [h1, h2]
  norm_num

theorem foldl_pair_sum (g h : ℝ × ℝ → ℝ) (l : List (ℝ × ℝ)) (a b : ℝ) :
    l.foldl (fun (acc : ℝ × ℝ) p => (acc.1 + g p, acc.2 + h p)) (a, b) =
      (a + (l.map g).sum, b + (l.map h).sum) := by
  induction l generalizing a b with
  | nil => simp
  | cons p t ih =>
    rw [List.foldl_cons, ih]
    simp only [List.map_cons, List.sum_cons]
    refine Prod.ext ?_ ?_ <;> simp <;> ring

/-- C1 (amended).  The mis-binding the spec describes is in
GammaNormalSigmaSampler, not GammaLogNormalSigmaSampler: for every sigma,
the gradient returned by GammaLogNormalSigmaSampler::f equals the sum of
the per-observation LogNormal df_dsigma terms plus the Gamma prior
DERIVATIVE at sigma (its prior_dx member is a GammaLogPdfDx), while the
gradient returned by GammaNormalSigmaSampler::f equals the Normal
df_dsigma term plus the Gamma prior log-density VALUE at sigma (its
prior_dx member is declared GammaLogPdf rather than GammaLogPdfDx). -/
theorem gammaSigmaSampler_prior_dx_wiring (priorAlpha priorBeta sigma : ℝ)
    (mus xs ys : List ℝ) :
    (gammaLogNormalSigmaF priorAlpha priorBeta mus xs sigma).2 =
        ((mus.zip xs).map
            (fun p => logNormalLogPdfDfDsigma p.1 sigma [p.2])).sum +
          gammaLogPdfDxX priorAlpha priorBeta sigma ∧
      (gammaNormalSigmaF priorAlpha priorBeta ys sigma).2 =
        normalLogPdfDfDsigma 0 sigma ys +
          gammaLogPdfX priorAlpha priorBeta sigma := by
  constructor
  · unfold gammaLogNormalSigmaF
    rw [foldl_pair_sum]
    simp
  · rfl

/-! ## The slice sampler (Shredder, shredder.cpp lines 70-208)

The target log-density f returns the pair (lp, d); lp is an Option, with
none standing for a non-finite double (the code tests it with
boost::math::isfinite), and the gradient d a plain rational.  Floats are
idealized as exact rationals; the fast logarithm used only for the slice
height is taken as an abstract parameter flog, since fastmath.hpp is not
among the sources under review.  The RNG is an oracle stream rng indexed
by the number of uniform draws made so far; Shredder::sample uses draw 0
for the slice height and one further draw per shrink iteration, and
find_slice_edge draws nothing.  The while loops of find_slice_edge carry
an explicit fuel; running out of fuel yields none, as does the
Logger::abort of the inner bisection loop after more than 50 iterations
without a finite log-density. -/

structure ShredderParams where
  lower : ℚ
  upper : ℚ
  tol : ℚ

/-- A conditional target: x maps to (lp, d), lp being none when the
log-density is not finite. -/
abbrev ShredderTarget := ℚ → Option ℚ × ℚ

/-- The constant lp_eps of find_slice_edge. -/
def lpEps : ℚ := 1/100

/-- The constant d_eps of find_slice_edge. -/
def dEps : ℚ := 1/1000

/-- The inner bisection loop of find_slice_edge (lines 182-199): evaluate
the midpoint of the bracket; while the log-density is not finite, narrow
the bracket toward the interior (away from the failing side) and retry;
abort - none - when the iteration count passes 50.  The fuel argument
counts the remaining permitted iterations, so the initial call passes 51;
on success the result carries the evaluation point (the midpoint of the
final bracket), the recentred finite log-density lp = f(x) - slice height,
the gradient, and the final bracket. -/
def bisectInner (f : ShredderTarget) (dir : ℤ) (sliceHeight : ℚ) :
    ℕ → ℚ → ℚ → Option (ℚ × ℚ × ℚ × ℚ × ℚ)
  | 0, _, _ => none
  | fuel + 1, xl, xu =>
    let x := (xl + xu) / 2
    match f x with
    | (none, _) =>
      if dir < 0 then bisectInner f dir sliceHeight fuel x xu
      else bisectInner f dir sliceHeight fuel xl x
    | (some lpv, d) => some (x, lpv - sliceHeight, d, xl, xu)

/-- The Newton candidate of one find_slice_edge iteration (lines
150-153): x - lp / d, falling back to the bracket midpoint when the
gradient is NaN, zero or smaller than d_eps (over the rationals the three
gradient conditions collapse to |d| < d_eps, and the candidate is always
finite). -/
def newtonCandidate (x lp d xl xu : ℚ) : ℚ :=
  if |d| < dEps then (xl + xu) / 2 else x - lp / d

/-- The bracket update of one find_slice_edge iteration (lines 162-169),
driven by the search direction and the sign of the recentred
log-density. -/
def bracketUpdate (dir : ℤ) (lp x xl xu : ℚ) : ℚ × ℚ :=
  if dir < 0 then (if 0 < lp then (xl, x) else (x, xu))
  else (if 0 < lp then (x, xu) else (xl, x))

/-- The main loop of find_slice_edge (lines 149-203).  State: remaining
fuel, Newton step count, current point x, recentred log-density
lp = f(x) - slice height, gradient d, and the bracket.  The loop guard
exits with the current x when |lp| is within lp_eps or the bracket is
within tolerance; otherwise one iteration computes the Newton candidate,
gives up at a boundary, updates the bracket by the sign of lp, and either
takes the Newton step or resorts to the inner bisection (also when the
Newton step lands on a non-finite log-density). -/
def edgeLoop (f : ShredderTarget) (P : ShredderParams) (maxNewton : ℕ)
    (dir : ℤ) (sliceHeight : ℚ) :
    ℕ → ℕ → ℚ → ℚ → ℚ → ℚ → ℚ → Option ℚ
  | 0, _, x, lp, _, xl, xu =>
    if |lp| ≤ lpEps ∨ |xu - xl| ≤ P.tol then some x else none
  | fuel + 1, nc, x, lp, d, xl, xu =>
    if |lp| ≤ lpEps ∨ |xu - xl| ≤ P.tol then some x
    else
      let x1 := newtonCandidate x lp d xl xu
      if dir < 0 ∧ |x - P.lower| ≤ P.tol ∧ (x1 < x ∨ 0 < lp) then some x
      else if 0 < dir ∧ |x - P.upper| ≤ P.tol ∧ (x < x1 ∨ 0 < lp) then some x
      else
        let xlu := bracketUpdate dir lp x xl xu
        if maxNewton ≤ nc ∨ x1 < xlu.1 + P.tol ∨ xlu.2 - P.tol < x1 then
          match bisectInner f dir sliceHeight 51 xlu.1 xlu.2 with
          | none => none
          | some (x2, lp2, d2, xl2, xu2) =>
            edgeLoop f P maxNewton dir sliceHeight fuel nc x2 lp2 d2 xl2 xu2
        else
          match f x1 with
          | (none, _) =>
            match bisectInner f dir sliceHeight 51 xlu.1 xlu.2 with
            | none => none
            | some (x2, lp2, d2, xl2, xu2) =>
              edgeLoop f P maxNewton dir sliceHeight fuel nc x2 lp2 d2 xl2 xu2
          | (some lpv, d1) =>
            edgeLoop f P maxNewton dir sliceHeight fuel (nc + 1) x1
              (lpv - sliceHeight) d1 xlu.1 xlu.2

/-- Shredder::find_slice_edge (lines 118-208).  The boundary in the
search direction is evaluated first; a finite value at or above the slice
height returns the boundary at once (the slice touches the limit), and
this evaluation overwrites the gradient variable before the loop starts,
so the d0 argument is never read past this point.  Otherwise the loop
runs on the half-interval bracket on the side of x0 given by dir. -/
def findSliceEdge (f : ShredderTarget) (P : ShredderParams)
    (maxNewton fuel : ℕ) (x0 sliceHeight lp0 d0 : ℚ) (dir : ℤ) : Option ℚ :=
  if dir < 0 then
    match f P.lower with
    | (some fx, db) =>
      if sliceHeight ≤ fx then some P.lower
      else edgeLoop f P maxNewton dir sliceHeight fuel 0 x0
        (lp0 - sliceHeight) db P.lower x0
    | (none, db) =>
      edgeLoop f P maxNewton dir sliceHeight fuel 0 x0
        (lp0 - sliceHeight) db P.lower x0
  else
    match f P.upper with
    | (some fx, db) =>
      if sliceHeight ≤ fx then some P.upper
      else edgeLoop f P maxNewton dir sliceHeight fuel 0 x0
        (lp0 - sliceHeight) db x0 P.upper
    | (none, db) =>
      edgeLoop f P maxNewton dir sliceHeight fuel 0 x0
        (lp0 - sliceHeight) db x0 P.upper

/-- The shrink loop of Shredder::sample (lines 84-93).  State: fuel, next
RNG draw index, current x (initially the midpoint of the slice edges) and
the shrinking interval.  While the interval exceeds the tolerance, draw a
uniform point in it; accept when its log-density reaches the slice
height, else shrink the side of x0 the point fell on.  On exit the pair
carries the returned x and the next unread draw index, so the number of
draws and of target evaluations made by the loop can be read off. -/
def shrinkLoop (f : ShredderTarget) (sliceHeight tol x0 : ℚ) (rng : ℕ → ℚ) :
    ℕ → ℕ → ℚ → ℚ → ℚ → Option (ℚ × ℕ)
  | 0, pos, x, xmin, xmax =>
    if xmax - xmin ≤ tol then some (x, pos) else none
  | fuel + 1, pos, x, xmin, xmax =>
    if xmax - xmin ≤ tol then some (x, pos)
    else
      let x1 := xmin + (xmax - xmin) * rng pos
      match f x1 with
      | (some lpv, _) =>
        if sliceHeight ≤ lpv then some (x1, pos + 1)
        else if x0 < x1 then
          shrinkLoop f sliceHeight tol x0 rng fuel (pos + 1) x1 xmin x1
        else shrinkLoop f sliceHeight tol x0 rng fuel (pos + 1) x1 x1 xmax
      | (none, _) =>
        if x0 < x1 then
          shrinkLoop f sliceHeight tol x0 rng fuel (pos + 1) x1 xmin x1
        else shrinkLoop f sliceHeight tol x0 rng fuel (pos + 1) x1 x1 xmax

/-- Shredder::sample (lines 70-96).  Evaluate the target at x0 (a
non-finite value aborts), form the slice height from draw 0, locate both
slice edges, and run the shrink loop from the midpoint of the edges.  The
returned pair is the sample and the total number of uniform draws
consumed. -/
def shredderSample (f : ShredderTarget) (P : ShredderParams)
    (maxNewton : ℕ) (zeroEps : ℚ) (flog : ℚ → ℚ) (rng : ℕ → ℚ)
    (edgeFuel shrinkFuel : ℕ) (x0 : ℚ) : Option (ℚ × ℕ) :=
  match f x0 with
  | (none, _) => none
  | (some lp0, d0) =>
    let sliceHeight := flog (max zeroEps (rng 0)) + lp0
    match findSliceEdge f P maxNewton edgeFuel x0 sliceHeight lp0 d0 (-1) with
    | none => none
    | some xmin =>
      match findSliceEdge f P maxNewton edgeFuel x0 sliceHeight lp0 d0 1 with
      | none => none
      | some xmax =>
        shrinkLoop f sliceHeight P.tol x0 rng shrinkFuel 1
          ((xmax + xmin) / 2) xmin xmax

theorem bisectInner_bounds (f : ShredderTarget) (dir : ℤ) (h : ℚ) :
    ∀ (fuel : ℕ) (xl xu x2 lp2 d2 xl2 xu2 : ℚ),
      bisectInner f dir h fuel xl xu = some (x2, lp2, d2, xl2, xu2) →
      xl ≤ xu →
      xl ≤ xl2 ∧ xu2 ≤ xu ∧ xl2 ≤ xu2 ∧ x2 = (xl2 + xu2) / 2 := by
  intro fuel
  induction fuel with
  | zero =>
    intro xl xu x2 lp2 d2 xl2 xu2 hres
    exact absurd hres (by simp [bisectInner])
  | succ fuel ih =>
    intro xl xu x2 lp2 d2 xl2 xu2 hres hle
    have hmid1 : xl ≤ (xl + xu) / 2 := by linarith
    have hmid2 : (xl + xu) / 2 ≤ xu := by linarith
    rcases hf : f ((xl + xu) / 2) with ⟨lpo, d⟩
    cases lpo with
    | none =>
      simp only [bisectInner, hf] at hres
      by_cases hdir : dir < 0
      · rw [if_pos hdir] at hres
        have := ih ((xl + xu) / 2) xu x2 lp2 d2 xl2 xu2 hres hmid2
        exact ⟨le_trans hmid1 this.1, this.2.1, this.2.2.1, this.2.2.2⟩
      · rw [if_neg hdir] at hres
        have := ih xl ((xl + xu) / 2) x2 lp2 d2 xl2 xu2 hres hmid1
        exact ⟨this.1, le_trans this.2.1 hmid2, this.2.2.1, this.2.2.2⟩
    | some lpv =>
      simp only [bisectInner, hf, Option.some.injEq, Prod.mk.injEq] at hres
      obtain ⟨hx2, hlp2, hd2, hxl2, hxu2⟩ := hres
      subst hxl2
      subst hxu2
      exact ⟨le_refl _, le_refl _, hle, hx2.symm⟩

theorem bracketUpdate_bounds (dir : ℤ) (lp x xl xu : ℚ) (hxl : xl ≤ x)
    (hxu : x ≤ xu) :
    xl ≤ (bracketUpdate dir lp x xl xu).1 ∧
      (bracketUpdate dir lp x xl xu).2 ≤ xu ∧
      (bracketUpdate dir lp x xl xu).1 ≤ (bracketUpdate dir lp x xl xu).2 := by
  unfold bracketUpdate
  by_cases hdir : dir < 0 <;> by_cases hlp : 0 < lp <;>
    simp [hdir, hlp] <;> constructor <;> linarith

theorem edgeLoop_bounds (f : ShredderTarget) (P : ShredderParams)
    (maxNewton : ℕ) (dir : ℤ) (h : ℚ) (htol : 0 ≤ P.tol) :
    ∀ (fuel nc : ℕ) (x lp d xl xu r : ℚ),
      edgeLoop f P maxNewton dir h fuel nc x lp d xl xu = some r →
      xl ≤ x → x ≤ xu → xl ≤ r ∧ r ≤ xu := by
  intro fuel
  induction fuel with
  | zero =>
    intro nc x lp d xl xu r hres hxl hxu
    simp only [edgeLoop] at hres
    split at hres
    · cases hres
      exact ⟨hxl, hxu⟩
    · exact absurd hres (by simp)
  | succ fuel ih =>
    intro nc x lp d xl xu r hres hxl hxu
    have hbu := bracketUpdate_bounds dir lp x xl xu hxl hxu
    simp only [edgeLoop] at hres
    split at hres
    · cases hres
      exact ⟨hxl, hxu⟩
    · split at hres
      · cases hres
        exact ⟨hxl, hxu⟩
      · split at hres
        · cases hres
          exact ⟨hxl, hxu⟩
        · split at hres
          · -- bisection forced by the step-acceptance test
            rcases hbi : bisectInner f dir h 51 (bracketUpdate dir lp x xl xu).1
                (bracketUpdate dir lp x xl xu).2 with - | ⟨x2, lp2, d2, xl2, xu2⟩
            · rw [hbi] at hres
              exact absurd hres (by simp)
            · rw [hbi] at hres
              have hb := bisectInner_bounds f dir h 51 _ _ _ _ _ _ _ hbi hbu.2.2
              have hx2l : xl2 ≤ x2 := by rw [hb.2.2.2]; linarith [hb.2.2.1]
              have hx2u : x2 ≤ xu2 := by rw [hb.2.2.2]; linarith [hb.2.2.1]
              have := ih nc x2 lp2 d2 xl2 xu2 r hres hx2l hx2u
              exact ⟨le_trans (le_trans hbu.1 hb.1) this.1,
                le_trans this.2 (le_trans hb.2.1 hbu.2.1)⟩
          · -- Newton step taken: the candidate lies inside the updated
            -- bracket, then either its log-density is finite and the loop
            -- recurses from it, or bisection takes over
            rename_i hnotbis
            push_neg at hnotbis
            obtain ⟨-, hx1l, hx1u⟩ := hnotbis
            have hx1l' : (bracketUpdate dir lp x xl xu).1 ≤
                newtonCandidate x lp d xl xu := by linarith
            have hx1u' : newtonCandidate x lp d xl xu ≤
                (bracketUpdate dir lp x xl xu).2 := by linarith
            rcases hf1 : f (newtonCandidate x lp d xl xu) with ⟨o, d1⟩
            cases o with
            | none =>
              rw [hf1] at hres
              rcases hbi : bisectInner f dir h 51 (bracketUpdate dir lp x xl xu).1
                  (bracketUpdate dir lp x xl xu).2 with - | ⟨x2, lp2, d2, xl2, xu2⟩
              · rw [hbi] at hres
                exact absurd hres (by simp)
              · rw [hbi] at hres
                have hb := bisectInner_bounds f dir h 51 _ _ _ _ _ _ _ hbi hbu.2.2
                have hx2l : xl2 ≤ x2 := by rw [hb.2.2.2]; linarith [hb.2.2.1]
                have hx2u : x2 ≤ xu2 := by rw [hb.2.2.2]; linarith [hb.2.2.1]
                have := ih nc x2 lp2 d2 xl2 xu2 r hres hx2l hx2u
                exact ⟨le_trans (le_trans hbu.1 hb.1) this.1,
                  le_trans this.2 (le_trans hb.2.1 hbu.2.1)⟩
            | some lpv =>
              rw [hf1] at hres
              have := ih (nc + 1) (newtonCandidate x lp d xl xu) (lpv - h) d1
                (bracketUpdate dir lp x xl xu).1 (bracketUpdate dir lp x xl xu).2
                r hres hx1l' hx1u'
              exact ⟨le_trans hbu.1 this.1, le_trans this.2 hbu.2.1⟩

theorem findSliceEdge_bounds_lower (f : ShredderTarget) (P : ShredderParams)
    (maxNewton fuel : ℕ) (x0 sliceHeight lp0 d0 r : ℚ) (htol : 0 ≤ P.tol)
    (hx0 : P.lower ≤ x0)
    (hres : findSliceEdge f P maxNewton fuel x0 sliceHeight lp0 d0 (-1) =
      some r) :
    P.lower ≤ r ∧ r ≤ x0 := by
  unfold findSliceEdge at hres
  rw [if_pos (by norm_num)] at hres
  rcases hf : f P.lower with ⟨o, db⟩
  cases o with
  | none =>
    simp only [hf] at hres
    exact edgeLoop_bounds f P maxNewton (-1) sliceHeight htol fuel 0 x0
      (lp0 - sliceHeight) db P.lower x0 r hres hx0 (le_refl x0)
  | some fx =>
    simp only [hf] at hres
    by_cases hfx : sliceHeight ≤ fx
    · rw [if_pos hfx] at hres
      cases hres
      exact ⟨le_refl _, hx0⟩
    · rw [if_neg hfx] at hres
      exact edgeLoop_bounds f P maxNewton (-1) sliceHeight htol fuel 0 x0
        (lp0 - sliceHeight) db P.lower x0 r hres hx0 (le_refl x0)

theorem findSliceEdge_bounds_upper (f : ShredderTarget) (P : ShredderParams)
    (maxNewton fuel : ℕ) (x0 sliceHeight lp0 d0 r : ℚ) (htol : 0 ≤ P.tol)
    (hx0 : x0 ≤ P.upper)
    (hres : findSliceEdge f P maxNewton fuel x0 sliceHeight lp0 d0 1 =
      some r) :
    x0 ≤ r ∧ r ≤ P.upper := by
  unfold findSliceEdge at hres
  rw [if_neg (by norm_num)] at hres
  rcases hf : f P.upper with ⟨o, db⟩
  cases o with
  | none =>
    simp only [hf] at hres
    exact edgeLoop_bounds f P maxNewton 1 sliceHeight htol fuel 0 x0
      (lp0 - sliceHeight) db x0 P.upper r hres (le_refl x0) hx0
  | some fx =>
    simp only [hf] at hres
    by_cases hfx : sliceHeight ≤ fx
    · rw [if_pos hfx] at hres
      cases hres
      exact ⟨hx0, le_refl _⟩
    · rw [if_neg hfx] at hres
      exact edgeLoop_bounds f P maxNewton 1 sliceHeight htol fuel 0 x0
        (lp0 - sliceHeight) db x0 P.upper r hres (le_refl x0) hx0

theorem shrinkLoop_bounds (f : ShredderTarget) (sliceHeight tol x0 : ℚ)
    (rng : ℕ → ℚ) (hrng : ∀ i, 0 ≤ rng i ∧ rng i ≤ 1) :
    ∀ (fuel pos : ℕ) (x xmin xmax r : ℚ) (n : ℕ),
      shrinkLoop f sliceHeight tol x0 rng fuel pos x xmin xmax = some (r, n) →
      xmin ≤ xmax → xmin ≤ x → x ≤ xmax →
      xmin ≤ r ∧ r ≤ xmax := by
  intro fuel
  induction fuel with
  | zero =>
    intro pos x xmin xmax r n hres hmm hxl hxu
    simp only [shrinkLoop] at hres
    split at hres
    · cases hres
      exact ⟨hxl, hxu⟩
    · exact absurd hres (by simp)
  | succ fuel ih =>
    intro pos x xmin xmax r n hres hmm hxl hxu
    have hx1l : xmin ≤ xmin + (xmax - xmin) * rng pos := by
      nlinarith [(hrng pos).1, (hrng pos).2]
    have hx1u : xmin + (xmax - xmin) * rng pos ≤ xmax := by
      nlinarith [(hrng pos).1, (hrng pos).2]
    simp only [shrinkLoop] at hres
    split at hres
    · cases hres
      exact ⟨hxl, hxu⟩
    · rcases hf1 : f (xmin + (xmax - xmin) * rng pos) with ⟨o, d1⟩
      cases o with
      | none =>
        simp only [hf1] at hres
        by_cases hgt : x0 < xmin + (xmax - xmin) * rng pos
        · rw [if_pos hgt] at hres
          have := ih (pos + 1) (xmin + (xmax - xmin) * rng pos) xmin
            (xmin + (xmax - xmin) * rng pos) r n hres hx1l hx1l (le_refl _)
          exact ⟨this.1, le_trans this.2 hx1u⟩
        · rw [if_neg hgt] at hres
          have := ih (pos + 1) (xmin + (xmax - xmin) * rng pos)
            (xmin + (xmax - xmin) * rng pos) xmax r n hres hx1u (le_refl _) hx1u
          exact ⟨le_trans hx1l this.1, this.2⟩
      | some lpv =>
        simp only [hf1] at hres
        by_cases hacc : sliceHeight ≤ lpv
        · rw [if_pos hacc] at hres
          cases hres
          exact ⟨hx1l, hx1u⟩
        · rw [if_neg hacc] at hres
          by_cases hgt : x0 < xmin + (xmax - xmin) * rng pos
          · rw [if_pos hgt] at hres
            have := ih (pos + 1) (xmin + (xmax - xmin) * rng pos) xmin
              (xmin + (xmax - xmin) * rng pos) r n hres hx1l hx1l (le_refl _)
            exact ⟨this.1, le_trans this.2 hx1u⟩
          · rw [if_neg hgt] at hres
            have := ih (pos + 1) (xmin + (xmax - xmin) * rng pos)
              (xmin + (xmax - xmin) * rng pos) xmax r n hres hx1u (le_refl _) hx1u
            exact ⟨le_trans hx1l this.1, this.2⟩

theorem shredderSample_mem_bounds (f : ShredderTarget) (P : ShredderParams)
    (maxNewton : ℕ) (zeroEps : ℚ) (flog : ℚ → ℚ) (rng : ℕ → ℚ)
    (edgeFuel shrinkFuel : ℕ) (x0 r : ℚ) (n : ℕ) (htol : 0 ≤ P.tol)
    (hx0l : P.lower ≤ x0) (hx0u : x0 ≤ P.upper)
    (hrng : ∀ i, 0 ≤ rng i ∧ rng i ≤ 1)
    (hres : shredderSample f P maxNewton zeroEps flog rng edgeFuel shrinkFuel
      x0 = some (r, n)) :
    P.lower ≤ r ∧ r ≤ P.upper := by
  unfold shredderSample at hres
  rcases hf0 : f x0 with ⟨o, d0⟩
  cases o with
  | none =>
    simp only [hf0] at hres
    exact Option.noConfusion hres
  | some lp0 =>
    simp only [hf0] at hres
    rcases hmin : findSliceEdge f P maxNewton edgeFuel x0
        (flog (max zeroEps (rng 0)) + lp0) lp0 d0 (-1) with - | xmin
    · simp only [hmin] at hres
      exact Option.noConfusion hres
    rcases hmax : findSliceEdge f P maxNewton edgeFuel x0
        (flog (max zeroEps (rng 0)) + lp0) lp0 d0 1 with - | xmax
    · simp only [hmin, hmax] at hres
      exact Option.noConfusion hres
    simp only [hmin, hmax] at hres
    have hminb := findSliceEdge_bounds_lower f P maxNewton edgeFuel x0
      (flog (max zeroEps (rng 0)) + lp0) lp0 d0 xmin htol hx0l hmin
    have hmaxb := findSliceEdge_bounds_upper f P maxNewton edgeFuel x0
      (flog (max zeroEps (rng 0)) + lp0) lp0 d0 xmax htol hx0u hmax
    have hmm : xmin ≤ xmax := le_trans hminb.2 hmaxb.1
    have hsh := shrinkLoop_bounds f (flog (max zeroEps (rng 0)) + lp0) P.tol x0
      rng hrng shrinkFuel 1 ((xmax + xmin) / 2) xmin xmax r n hres hmm
      (by linarith) (by linarith)
    exact ⟨le_trans hminb.1 hsh.1, le_trans hsh.2 hmaxb.2⟩

/-- The Shredder bounds of the GammaShapeSampler that
ConditionMeanShapeSamplerThread constructs (analyze.cpp line 961:
shape_sampler(0.1, 5.0)), together with the GammaShapeSampler Shredder
tolerance 1e-2 (analyze.cpp line 183). -/
def gammaShapeSamplerParams : ShredderParams := ⟨1/10, 5, 1/100⟩

/-- C6.  Every value returned by Shredder::sample lies within the
configured [lower, upper] bounds, provided the starting point does and
the uniform draws lie in [0, 1]; in particular GammaShapeSampler, whose
sample method returns the Shredder::sample draw unclamped, yields values
in [0.1, 5]; and the condition-splice sigma update outside burn-in is
bounded below by analyze_min_splice_sigma. -/
theorem slice_sampler_bounds :
    (∀ (f : ShredderTarget) (P : ShredderParams) (maxNewton : ℕ)
        (zeroEps : ℚ) (flog : ℚ → ℚ) (rng : ℕ → ℚ)
        (edgeFuel shrinkFuel : ℕ) (x0 r : ℚ) (n : ℕ),
        0 ≤ P.tol → P.lower ≤ x0 → x0 ≤ P.upper →
        (∀ i, 0 ≤ rng i ∧ rng i ≤ 1) →
        shredderSample f P maxNewton zeroEps flog rng edgeFuel shrinkFuel x0 =
          some (r, n) →
        P.lower ≤ r ∧ r ≤ P.upper) ∧
      (∀ (f : ShredderTarget) (maxNewton : ℕ) (zeroEps : ℚ) (flog : ℚ → ℚ)
        (rng : ℕ → ℚ) (edgeFuel shrinkFuel : ℕ) (x0 r : ℚ) (n : ℕ),
        1/10 ≤ x0 → x0 ≤ 5 → (∀ i, 0 ≤ rng i ∧ rng i ≤ 1) →
        shredderSample f gammaShapeSamplerParams maxNewton zeroEps flog rng
          edgeFuel shrinkFuel x0 = some (r, n) →
        1/10 ≤ r ∧ r ≤ 5) ∧
      (∀ minSigma sampled : ℚ,
        minSigma ≤ conditionSpliceSigmaUpdate false minSigma sampled) := by
  refine ⟨?_, ?_, ?_⟩
  · intro f P maxNewton zeroEps flog rng edgeFuel shrinkFuel x0 r n htol
      hx0l hx0u hrng hres
    exact shredderSample_mem_bounds f P maxNewton zeroEps flog rng edgeFuel
      shrinkFuel x0 r n htol hx0l hx0u hrng hres
  · intro f maxNewton zeroEps flog rng edgeFuel shrinkFuel x0 r n hx0l hx0u
      hrng hres
    exact shredderSample_mem_bounds f gammaShapeSamplerParams maxNewton
      zeroEps flog rng edgeFuel shrinkFuel x0 r n (by norm_num
        [gammaShapeSamplerParams]) hx0l hx0u hrng hres
  · intro minSigma sampled
    simp only [conditionSpliceSigmaUpdate, Bool.false_eq_true, if_false]
    exact le_max_left minSigma sampled

/-- Witness for slice_sampler_bounds: a constant target with log-density
zero on the degenerate interval [0, 0] returns 0 after one uniform draw,
and 0 lies inside the interval. -/
theorem slice_sampler_bounds_witness :
    shredderSample (fun _ => (some 0, 1)) ⟨0, 0, 1⟩ 0 1 (fun _ => 0)
        (fun _ => 0) 0 0 0 = some (0, 1) ∧
      (0 : ℚ) ≤ 0 ∧ (0 : ℚ) ≤ 0 := by
  have hs : shredderSample (fun _ => ((some 0 : Option ℚ), (1 : ℚ))) ⟨0, 0, 1⟩ 0 1
      (fun _ => 0) (fun _ => 0) 0 0 0 = some (0, 1) := by
    simp only [shredderSample, findSliceEdge, shrinkLoop]
    norm_num
  refine ⟨hs, ?_⟩
  have h := slice_sampler_bounds.1 (fun _ => (some 0, 1)) ⟨0, 0, 1⟩ 0 1
    (fun _ => 0) (fun _ => 0) 0 0 0 0 1 (by norm_num) (by norm_num)
    (by norm_num) (fun i => by norm_num) hs
  exact h

/-- C9.  The inner bisection loop of find_slice_edge: whenever it
returns, the log-density at the returned midpoint is finite and equal to
the returned recentred value plus the slice height; when the target is
non-finite at every point the loop aborts, returning none, after its 51st
iteration (the source aborts when the iteration count passes 50); and
each non-finite evaluation narrows the bracket to the half on the far
side of the search direction, halving its width. -/
theorem slice_edge_bisection_abort (f : ShredderTarget) (dir : ℤ)
    (sliceHeight : ℚ) :
    (∀ (fuel : ℕ) (xl xu x2 lp2 d2 xl2 xu2 : ℚ),
        bisectInner f dir sliceHeight fuel xl xu =
          some (x2, lp2, d2, xl2, xu2) →
        (f x2).1 = some (lp2 + sliceHeight) ∧ x2 = (xl2 + xu2) / 2) ∧
      (∀ xl xu : ℚ, (∀ y, (f y).1 = none) →
        bisectInner f dir sliceHeight 51 xl xu = none) ∧
      (∀ (fuel : ℕ) (xl xu : ℚ), (f ((xl + xu) / 2)).1 = none →
        bisectInner f dir sliceHeight (fuel + 1) xl xu =
          (if dir < 0 then bisectInner f dir sliceHeight fuel ((xl + xu) / 2) xu
            else bisectInner f dir sliceHeight fuel xl ((xl + xu) / 2)) ∧
          xu - (xl + xu) / 2 = (xu - xl) / 2 ∧
          (xl + xu) / 2 - xl = (xu - xl) / 2) := by
  refine ⟨?_, ?_, ?_⟩
  · intro fuel
    induction fuel with
    | zero =>
      intro xl xu x2 lp2 d2 xl2 xu2 hres
      exact absurd hres (by simp [bisectInner])
    | succ fuel ih =>
      intro xl xu x2 lp2 d2 xl2 xu2 hres
      rcases hf : f ((xl + xu) / 2) with ⟨o, d⟩
      cases o with
      | none =>
        simp only [bisectInner, hf] at hres
        by_cases hdir : dir < 0
        · rw [if_pos hdir] at hres
          exact ih ((xl + xu) / 2) xu x2 lp2 d2 xl2 xu2 hres
        · rw [if_neg hdir] at hres
          exact ih xl ((xl + xu) / 2) x2 lp2 d2 xl2 xu2 hres
      | some lpv =>
        simp only [bisectInner, hf, Option.some.injEq, Prod.mk.injEq] at hres
        obtain ⟨hx2, hlp2, hd2, hxl2, hxu2⟩ := hres
        subst hx2
        subst hxl2
        subst hxu2
        subst hlp2
        refine ⟨?_, rfl⟩
        rw [hf]
        simp
  · intro xl xu hnone
    have hgen : ∀ (fuel : ℕ) (a b : ℚ),
        bisectInner f dir sliceHeight fuel a b = none := by
      intro fuel
      induction fuel with
      | zero => intro a b; rfl
      | succ fuel ih =>
        intro a b
        rcases hf : f ((a + b) / 2) with ⟨o, d⟩
        cases o with
        | none =>
          simp only [bisectInner, hf]
          by_cases hdir : dir < 0
          · rw [if_pos hdir]
            exact ih ((a + b) / 2) b
          · rw [if_neg hdir]
            exact ih a ((a + b) / 2)
        | some lpv =>
          exact absurd (hnone ((a + b) / 2)) (by rw [hf]; simp)
    exact hgen 51 xl xu
  · intro fuel xl xu hmid
    rcases hf : f ((xl + xu) / 2) with ⟨o, d⟩
    cases o with
    | some lpv => rw [hf] at hmid; exact absurd hmid (by simp)
    | none =>
      refine ⟨?_, by ring, by ring⟩
      simp only [bisectInner, hf]

/-- Witness for slice_edge_bisection_abort: the everywhere non-finite
target makes the inner bisection loop abort on the bracket [0, 1]. -/
theorem slice_edge_bisection_abort_witness :
    bisectInner (fun _ => ((none : Option ℚ), (0 : ℚ))) (-1) 0 51 0 1 =
      none :=
  (slice_edge_bisection_abort (fun _ => (none, 0)) (-1) 0).2.1 0 1
    (fun y => rfl)

/-- C10.  When the two slice edges are within the tolerance of each
other, Shredder::sample returns their midpoint after the single uniform
draw used for the slice height: the shrink loop exits at once, drawing no
uniform variate and never evaluating the target after the edge search
(the returned draw count 1 counts every uniform consumed, and each shrink
iteration would consume exactly one draw and one target evaluation). -/
theorem sample_returns_midpoint_when_edges_close (f : ShredderTarget)
    (P : ShredderParams) (maxNewton : ℕ) (zeroEps : ℚ) (flog : ℚ → ℚ)
    (rng : ℕ → ℚ) (edgeFuel shrinkFuel : ℕ) (x0 lp0 d0 xmin xmax : ℚ)
    (hf : f x0 = (some lp0, d0))
    (hmin : findSliceEdge f P maxNewton edgeFuel x0
      (flog (max zeroEps (rng 0)) + lp0) lp0 d0 (-1) = some xmin)
    (hmax : findSliceEdge f P maxNewton edgeFuel x0
      (flog (max zeroEps (rng 0)) + lp0) lp0 d0 1 = some xmax)
    (hclose : xmax - xmin ≤ P.tol) :
    shredderSample f P maxNewton zeroEps flog rng edgeFuel shrinkFuel x0 =
      some ((xmax + xmin) / 2, 1) := by
  unfold shredderSample
  simp only [hf, hmin, hmax]
  cases shrinkFuel with
  | zero => simp only [shrinkLoop, if_pos hclose]
  | succ fuel => simp only [shrinkLoop, if_pos hclose]

/-- Witness for sample_returns_midpoint_when_edges_close: the constant
target with log-density 0 on [0, 0]; both edges are the boundary 0, so
the sample is the midpoint 0 with a single draw consumed. -/
theorem sample_returns_midpoint_witness :
    shredderSample (fun _ => ((some 0 : Option ℚ), (1 : ℚ))) ⟨0, 0, 1⟩ 0 1
        (fun _ => 0) (fun _ => 0) 0 0 0 = some ((0 + 0) / 2, 1) := by
  have hf : (fun (_ : ℚ) => ((some 0 : Option ℚ), (1 : ℚ))) 0 =
      (some 0, 1) := rfl
  have hedge1 : findSliceEdge (fun _ => ((some 0 : Option ℚ), (1 : ℚ)))
      ⟨0, 0, 1⟩ 0 0 0 ((fun (_ : ℚ) => (0 : ℚ)) (max 1 ((fun (_ : ℕ) => (0 : ℚ)) 0)) + 0)
      0 1 (-1) = some 0 := by
    simp only [findSliceEdge]
    norm_num
  have hedge2 : findSliceEdge (fun _ => ((some 0 : Option ℚ), (1 : ℚ)))
      ⟨0, 0, 1⟩ 0 0 0 ((fun (_ : ℚ) => (0 : ℚ)) (max 1 ((fun (_ : ℕ) => (0 : ℚ)) 0)) + 0)
      0 1 1 = some 0 := by
    simp only [findSliceEdge]
    norm_num
  exact sample_returns_midpoint_when_edges_close
    (fun _ => (some 0, 1)) ⟨0, 0, 1⟩ 0 1 (fun _ => 0) (fun _ => 0) 0 0 0 0 1
    0 0 hf hedge1 hedge2 (by norm_num)

end Isolator
